import Mathlib

/-!
A model of the Huffman compressor in `src/encoding.cpp`.

Byte values (C++ `char`) are modelled as Lean `Char`.  The Stanford
`Map` (a tree kept sorted by key) is modelled as an association list
sorted by key, with assignment modelled by insert-or-overwrite
(`mapPut`); lookup and `containsKey` are `assocFind`.  The
`PriorityQueue` is modelled as a list sorted by ascending priority in
which insertion places an element after existing elements of equal
priority (one deterministic tie-break; the C++ binary heap leaves ties
unspecified, and no property below depends on the tie-break).
Library errors of the C++ code (an out-of-range `substr`, dequeue on
an empty queue) are modelled as `none`.  The two unbounded loops
(`recreateTreeFromHeaderHelper`, whose recursion depth is bounded by
the header length, and the decode loop of `decompress`) carry explicit
fuel; `recreateTreeFromHeader` and `decompress` call them with enough
fuel that the fuel-out answer `none` is produced exactly on inputs
where the C++ code errors out or runs forever.
-/

namespace Huffman

/-- `HuffmanNode`: either a leaf holding a character, or an interior node
with a zero child and a one child — the only two constructors the code
uses, so every tree it builds is strictly binary. -/
inductive HTree : Type
  | leaf (ch : Char)
  | node (zero one : HTree)
deriving DecidableEq

/-- First-match lookup in an association list (`Map::get` / `containsKey`). -/
def assocFind {α β : Type} [DecidableEq α] : List (α × β) → α → Option β
  | [], _ => none
  | (k, v) :: rest, c => if k = c then some v else assocFind rest c

/-- Assignment `map[k] = v` on a `Map` kept sorted by key:
insert-or-overwrite preserving the sorted order. -/
def mapPut {β : Type} (k : Char) (v : β) : List (Char × β) → List (Char × β)
  | [] => [(k, v)]
  | (k2, v2) :: rest =>
    if k = k2 then (k, v) :: rest
    else if k < k2 then (k, v) :: (k2, v2) :: rest
    else (k2, v2) :: mapPut k v rest

/-- One step of `buildFrequencyTable`: `freqTable[ch]++` (a missing key is
created with the default value 0, then incremented). -/
def freqStep (m : List (Char × Nat)) (ch : Char) : List (Char × Nat) :=
  mapPut ch ((assocFind m ch).getD 0 + 1) m

/-- `buildFrequencyTable`: one full pass over the input, incrementing a
counter per observed byte. -/
def buildFrequencyTable (input : List Char) : List (Char × Nat) :=
  input.foldl freqStep []

/-- `PriorityQueue::enqueue` into a list sorted by ascending priority; an
element whose priority equals an existing one goes after it. -/
def pqInsert (x : HTree × Nat) : List (HTree × Nat) → List (HTree × Nat)
  | [] => [x]
  | y :: rest => if x.2 < y.2 then x :: y :: rest else y :: pqInsert x rest

/-- The `while(weights.size() != 1)` loop of `buildEncodingTree`: dequeue
the two minimum nodes (their priorities read off before removal), enqueue
their combination with the summed priority, and finally dequeue the root.
On an empty queue the C++ dequeue raises an error: `none`.  The fuel is
the initial queue length, which bounds the number of iterations. -/
def buildLoop : Nat → List (HTree × Nat) → Option HTree
  | _, [] => none
  | _, [t] => some t.1
  | 0, _ :: _ :: _ => none
  | f + 1, a :: b :: rest =>
    buildLoop f (pqInsert (HTree.node a.1 b.1, a.2 + b.2) rest)

/-- `buildEncodingTree`: enqueue one leaf per table entry (in the table's
key order) with its frequency as priority, then run the combining loop. -/
def buildEncodingTree (ft : List (Char × Nat)) : Option HTree :=
  let q := ft.foldl (fun w p => pqInsert (HTree.leaf p.1, p.2) w) []
  buildLoop q.length q

/-- `flattenTreeToHeader`: a leaf is `'.'` followed by its raw character;
an interior node wraps its children's headers in parentheses.  (The C++
nullptr branch returns "" and is unreachable from well-formed trees.) -/
def flattenTreeToHeader : HTree → List Char
  | HTree.leaf c => ['.', c]
  | HTree.node z o => '(' :: (flattenTreeToHeader z ++ flattenTreeToHeader o ++ [')'])

/-- `recreateTreeFromHeaderHelper`, on an explicit remaining-string state.
If the string starts with `'.'` the next character is taken as a leaf,
otherwise the first character (whatever it is) is consumed as an opening
marker, two subtrees are parsed, and one further character (whatever it
is) is consumed as the closing marker.  An out-of-range `substr` — the
C++ behaviour on a truncated string — is `none`.  The fuel only bounds
the recursion depth, which the C++ code bounds by the string length
because every call consumes a character before recursing. -/
def recreateTreeFromHeaderHelper : Nat → List Char → Option (HTree × List Char)
  | 0, _ => none
  | _ + 1, [] => none
  | f + 1, c :: rest =>
    if c = '.' then
      match rest with
      | [] => none
      | ch :: rest2 => some (HTree.leaf ch, rest2)
    else
      match recreateTreeFromHeaderHelper f rest with
      | none => none
      | some (z, r1) =>
        match recreateTreeFromHeaderHelper f r1 with
        | none => none
        | some (o, r2) =>
          match r2 with
          | [] => none
          | _ :: r3 => some (HTree.node z o, r3)

/-- `recreateTreeFromHeader`: run the helper on the whole header; whatever
is left of the string afterwards is ignored. -/
def recreateTreeFromHeader (s : List Char) : Option HTree :=
  (recreateTreeFromHeaderHelper (s.length + 1) s).map Prod.fst

/-- `gatherLeaves`: depth-first traversal writing `map[tree->ch] = code`
at each leaf, appending 0 towards the zero child and 1 towards the one
child.  The map accumulator is threaded in traversal order, so a later
leaf with the same character overwrites an earlier one, as in C++. -/
def gatherLeaves : HTree → List (Char × List Bool) → List Bool → List (Char × List Bool)
  | HTree.leaf c, m, code => mapPut c code m
  | HTree.node z o, m, code =>
    gatherLeaves o (gatherLeaves z m (code ++ [false])) (code ++ [true])

/-- `buildEncodingMap`: gather the leaves starting from the empty code. -/
def buildEncodingMap (t : HTree) : List (Char × List Bool) :=
  gatherLeaves t [] []

/-- Ghost function for the proofs: the plain list of (character, root
path) pairs of a tree, in traversal order, without the map overwrite. -/
def paths : HTree → List Bool → List (Char × List Bool)
  | HTree.leaf c, code => [(c, code)]
  | HTree.node z o, code => paths z (code ++ [false]) ++ paths o (code ++ [true])

/-- Ghost function for the proofs: the leaf characters in traversal order. -/
def leaves : HTree → List Char
  | HTree.leaf c => [c]
  | HTree.node z o => leaves z ++ leaves o

/-- Ghost function for the proofs: tree height. -/
def heightT : HTree → Nat
  | HTree.leaf _ => 0
  | HTree.node z o => max (heightT z) (heightT o) + 1

/-- The `characterMap` of `decompress`: the encoding map with every pair
swapped.  C++ builds it by `characterMap[binaryMap[ch]] = ch` over the
encoding map; since the codes of an encoding map are pairwise distinct
(proved below), first-match lookup in the swapped list agrees with the
C++ map. -/
def invert (bm : List (Char × List Bool)) : List (List Bool × Char) :=
  bm.map (fun p => (p.2, p.1))

/-- The decode loop of `decompress`, one comparison-or-read per fuel
unit: if the accumulator `acc` is a key of `characterMap`, emit its
character and reset the accumulator; otherwise read one bit, and on
end-of-stream return the output produced so far. -/
def decodeStep (cm : List (List Bool × Char)) :
    Nat → List Bool → List Bool → List Char → Option (List Char)
  | 0, _, _, _ => none
  | f + 1, input, acc, out =>
    match assocFind cm acc with
    | some c => decodeStep cm f input [] (out ++ [c])
    | none =>
      match input with
      | [] => some out
      | b :: rest => decodeStep cm f rest (acc ++ [b]) out

/-- `compress`: build the frequency table, the tree, the header and the
encoding map, then emit the header and, for each input byte (the stream
is rewound), the bits of its code.  A missing key in `binaryMap[ch]`
default-constructs the empty string, as in C++. -/
def compress (input : List Char) : Option (List Char × List Bool) :=
  match buildEncodingTree (buildFrequencyTable input) with
  | none => none
  | some tree =>
    some (flattenTreeToHeader tree,
      input.flatMap fun ch => (assocFind (buildEncodingMap tree) ch).getD [])

/-- `decompress`: rebuild the tree from the header, invert its encoding
map, and run the decode loop.  The fuel `2 * bits.length + 2` covers one
read and one emit per input bit plus the final end-of-stream check, so
(proved below) the loop only exhausts it when the C++ loop runs forever. -/
def decompress (header : List Char) (bits : List Bool) : Option (List Char) :=
  match recreateTreeFromHeader header with
  | none => none
  | some tree =>
    decodeStep (invert (buildEncodingMap tree)) (2 * bits.length + 2) bits [] []

/-- Compression followed by decompression of the result. -/
def roundTrip (input : List Char) : Option (List Char) :=
  match compress input with
  | none => none
  | some (header, bits) => decompress header bits

/-- A character `c` is decodable: the encoding map gives it a non-empty
code, the inverted map sends that code back to `c`, and no strictly
shorter leading part of the code is a key of the inverted map. -/
def GoodChar (bm : List (Char × List Bool)) (cm : List (List Bool × Char)) (c : Char) : Prop :=
  ∃ p, assocFind bm c = some p ∧ p ≠ [] ∧ assocFind cm p = some c ∧
    ∀ q, q <+: p → q ≠ p → assocFind cm q = none

/-! ### Association list lemmas -/

theorem assocFind_mem {α β : Type} [DecidableEq α] {l : List (α × β)} {c : α} {v : β}
    (h : assocFind l c = some v) : (c, v) ∈ l := by
  induction l with
  | nil => simp [assocFind] at h
  | cons e rest ih =>
    obtain ⟨k, w⟩ := e
    by_cases hk : k = c
    · subst hk
      simp [assocFind] at h
      subst h
      exact List.mem_cons_self _ _
    · simp only [assocFind, if_neg hk] at h
      exact List.mem_cons_of_mem _ (ih h)

theorem isSome_assocFind_of_mem_keys {α β : Type} [DecidableEq α] {l : List (α × β)} {c : α}
    (h : c ∈ l.map Prod.fst) : (assocFind l c).isSome := by
  induction l with
  | nil => simp at h
  | cons e rest ih =>
    obtain ⟨k, w⟩ := e
    by_cases hk : k = c
    · simp [assocFind, hk]
    · simp only [List.map_cons, List.mem_cons] at h
      rcases h with h | h

      · exact absurd h.symm hk
      · simp only [assocFind, if_neg hk]
        exact ih h

theorem mem_keys_of_assocFind {α β : Type} [DecidableEq α] {l : List (α × β)} {c : α} {v : β}
    (h : assocFind l c = some v) : c ∈ l.map Prod.fst := by
  have := assocFind_mem h
  exact List.mem_map_of_mem Prod.fst this

theorem assocFind_append {α β : Type} [DecidableEq α] (l1 l2 : List (α × β)) (c : α) :
    assocFind (l1 ++ l2) c = (assocFind l1 c).or (assocFind l2 c) := by
  induction l1 with
  | nil => simp [assocFind]
  | cons e rest ih =>
    obtain ⟨k, w⟩ := e
    by_cases hk : k = c
    · simp [assocFind, hk]
    · simp [assocFind, hk, ih]

theorem mapPut_find_self {β : Type} (k : Char) (v : β) (m : List (Char × β)) :
    assocFind (mapPut k v m) k = some v := by
  induction m with
  | nil => simp [mapPut, assocFind]
  | cons e rest ih =>
    obtain ⟨k2, v2⟩ := e
    by_cases h1 : k = k2
    · simp [mapPut, h1, assocFind]
    · by_cases h2 : k < k2
      · simp [mapPut, h1, h2, assocFind]
      · have h3 : k2 ≠ k := fun h => h1 h.symm
        simp [mapPut, h1, h2, assocFind, h3, ih]

theorem mapPut_find_other {β : Type} {k k' : Char} (hne : k' ≠ k) (v : β)
    (m : List (Char × β)) : assocFind (mapPut k v m) k' = assocFind m k' := by
  have hkk : k ≠ k' := fun h => hne h.symm
  induction m with
  | nil => simp [mapPut, assocFind, hkk]
  | cons e rest ih =>
    obtain ⟨k2, v2⟩ := e
    by_cases h1 : k = k2
    · subst h1
      simp [mapPut, assocFind, hkk]
    · by_cases h2 : k < k2
      · simp [mapPut, h1, h2, assocFind, hkk]
      · simp [mapPut, h1, h2, assocFind, ih]

theorem mapPut_mem {β : Type} {k : Char} {v : β} {m : List (Char × β)} {e : Char × β}
    (h : e ∈ mapPut k v m) : e = (k, v) ∨ e ∈ m := by
  induction m with
  | nil => simpa [mapPut] using h
  | cons e2 rest ih =>
    obtain ⟨k2, v2⟩ := e2
    by_cases h1 : k = k2
    · simp only [mapPut, if_pos h1, List.mem_cons] at h
      rcases h with h | h
      · exact Or.inl h
      · exact Or.inr (List.mem_cons_of_mem _ h)
    · by_cases h2 : k < k2
      · simp only [mapPut, if_neg h1, if_pos h2, List.mem_cons] at h
        rcases h with h | h | h
        · exact Or.inl h
        · exact Or.inr (by simp [h])
        · exact Or.inr (List.mem_cons_of_mem _ h)
      · simp only [mapPut, if_neg h1, if_neg h2, List.mem_cons] at h
        rcases h with h | h
        · exact Or.inr (by simp [h])
        · rcases ih h with h3 | h3
          · exact Or.inl h3
          · exact Or.inr (List.mem_cons_of_mem _ h3)

/-! ### Frequency table -/

theorem freq_fold_find (input : List Char) :
    ∀ (m : List (Char × Nat)) (c : Char),
      assocFind (input.foldl freqStep m) c =
        if input.count c = 0 then assocFind m c
        else some ((assocFind m c).getD 0 + input.count c) := by
  induction input with
  | nil => intro m c; simp
  | cons x xs ih =>
    intro m c
    rw [List.foldl_cons, ih]
    by_cases hc : c = x
    · subst hc
      have h1 : assocFind (freqStep m c) c = some ((assocFind m c).getD 0 + 1) :=
        mapPut_find_self c _ m
      rw [List.count_cons_self]
      by_cases h0 : xs.count c = 0
      · simp [h0, h1]
      · have hne : xs.count c + 1 ≠ 0 := by omega
        rw [if_neg h0, if_neg hne, h1]
        simp only [Option.getD_some]
        congr 1
        omega
    · have h1 : assocFind (freqStep m x) c = assocFind m c :=
        mapPut_find_other hc _ m
      rw [List.count_cons_of_ne hc, h1]

theorem buildFrequencyTable_find (input : List Char) (c : Char) :
    assocFind (buildFrequencyTable input) c =
      if input.count c = 0 then none else some (input.count c) := by
  have := freq_fold_find input [] c
  simpa [buildFrequencyTable, assocFind] using this

/-! ### Header codec -/

theorem recH_nil (f : Nat) : recreateTreeFromHeaderHelper f [] = none := by
  cases f <;> simp [recreateTreeFromHeaderHelper]

theorem heightT_lt_flatten_length (t : HTree) :
    heightT t < (flattenTreeToHeader t).length := by
  induction t with
  | leaf c => simp [heightT, flattenTreeToHeader]
  | node z o ihz iho =>
    simp only [heightT, flattenTreeToHeader, List.length_cons, List.length_append,
      List.length_singleton]
    omega

theorem recH_flatten (t : HTree) :
    ∀ (rest : List Char) (f : Nat), heightT t < f →
      recreateTreeFromHeaderHelper f (flattenTreeToHeader t ++ rest) = some (t, rest) := by
  induction t with
  | leaf c =>
    intro rest f hf
    obtain ⟨g, rfl⟩ : ∃ g, f = g + 1 := ⟨f - 1, by omega⟩
    simp [flattenTreeToHeader, recreateTreeFromHeaderHelper]
  | node z o ihz iho =>
    intro rest f hf
    obtain ⟨g, rfl⟩ : ∃ g, f = g + 1 := ⟨f - 1, by omega⟩
    have hz : heightT z < g := by simp [heightT] at hf; omega
    have ho : heightT o < g := by simp [heightT] at hf; omega
    have hne : ('(' : Char) ≠ '.' := by decide
    have harr : flattenTreeToHeader (HTree.node z o) ++ rest =
        '(' :: (flattenTreeToHeader z ++ (flattenTreeToHeader o ++ (')' :: rest))) := by
      simp [flattenTreeToHeader]
    rw [harr]
    simp only [recreateTreeFromHeaderHelper, if_neg hne,
      ihz (flattenTreeToHeader o ++ (')' :: rest)) g hz, iho (')' :: rest) g ho]

theorem recreate_flatten_aux (t : HTree) :
    recreateTreeFromHeader (flattenTreeToHeader t) = some t := by
  have h := recH_flatten t [] ((flattenTreeToHeader t).length + 1)
    (by have := heightT_lt_flatten_length t; omega)
  rw [List.append_nil] at h
  simp [recreateTreeFromHeader, h]

theorem recH_flatten_nil (t : HTree) (g : Nat) (hg : heightT t < g) :
    recreateTreeFromHeaderHelper g (flattenTreeToHeader t) = some (t, []) := by
  have h := recH_flatten t [] g hg
  rwa [List.append_nil] at h

theorem recH_truncated (t : HTree) :
    ∀ (p q : List Char) (f : Nat), flattenTreeToHeader t = p ++ q → q ≠ [] →
      p.length + 1 ≤ f → recreateTreeFromHeaderHelper f p = none := by
  induction t with
  | leaf c =>
    intro p q f h hq hf
    cases p with
    | nil => exact recH_nil f
    | cons x p2 =>
      cases p2 with
      | nil =>
        simp only [flattenTreeToHeader, List.singleton_append, List.cons.injEq] at h
        obtain ⟨rfl, h2⟩ := h
        obtain ⟨g, rfl⟩ : ∃ g, f = g + 1 := ⟨f - 1, by omega⟩
        simp [recreateTreeFromHeaderHelper]
      | cons x2 ps =>
        exfalso
        simp only [flattenTreeToHeader, List.cons_append, List.cons.injEq] at h
        obtain ⟨rfl, rfl, h3⟩ := h
        exact hq (List.append_eq_nil.1 h3.symm).2
  | node z o ihz iho =>
    intro p q f h hq hf
    cases p with
    | nil => exact recH_nil f
    | cons c p' =>
      simp only [flattenTreeToHeader, List.cons_append, List.cons.injEq] at h
      obtain ⟨rfl, h2⟩ := h
      obtain ⟨g, rfl⟩ : ∃ g, f = g + 1 := ⟨f - 1, by omega⟩
      have hg : p'.length + 1 ≤ g := by
        simp only [List.length_cons] at hf; omega
      have hne : ('(' : Char) ≠ '.' := by decide
      simp only [recreateTreeFromHeaderHelper, if_neg hne]
      rw [List.append_assoc] at h2
      rcases List.append_eq_append_iff.1 h2.symm with ⟨a', ha1, ha2⟩ | ⟨c', hc1, hc2⟩
      · -- the cut is inside (or at the end of) the zero child's serialization
        cases a' with
        | nil =>
          rw [List.append_nil] at ha1
          subst ha1
          simp only [recH_flatten_nil z g (by
            have := heightT_lt_flatten_length z
            omega), recH_nil]
        | cons b a'' =>
          simp only [ihz p' (b :: a'') g ha1 (by simp) hg]
      · -- the zero child parses fully; the cut is in the one child or the final marker
        subst hc1
        have hlen : (flattenTreeToHeader z).length + c'.length + 1 ≤ g := by
          simp only [List.length_append] at hg
          omega
        have hfz : recreateTreeFromHeaderHelper g (flattenTreeToHeader z ++ c') =
            some (z, c') := by
          apply recH_flatten z c' g
          have := heightT_lt_flatten_length z
          omega
        simp only [hfz]
        rcases List.append_eq_append_iff.1 hc2 with ⟨b', hb1, hb2⟩ | ⟨d', hd1, hd2⟩
        · -- c' runs past the one child: then the closing marker area forces q = []
          have hb : b' = [] := by
            cases b' with
            | nil => rfl
            | cons x bs =>
              exfalso
              simp only [List.cons_append, List.cons.injEq] at hb2
              exact hq (List.append_eq_nil.1 hb2.2.symm).2
          subst hb
          rw [List.append_nil] at hb1
          subst hb1
          simp only [recH_flatten_nil o g (by
            have := heightT_lt_flatten_length o
            omega)]
        · -- the cut is inside (or at the end of) the one child's serialization
          cases d' with
          | nil =>
            rw [List.append_nil] at hd1
            subst hd1
            simp only [recH_flatten_nil o g (by
              have := heightT_lt_flatten_length o
              omega)]
          | cons x ds =>
            simp only [iho c' (x :: ds) g hd1 (by simp) (by omega)]

/-! ### Leaf paths and the encoding map -/

theorem paths_fst (t : HTree) : ∀ code, (paths t code).map Prod.fst = leaves t := by
  induction t with
  | leaf c => intro code; simp [paths, leaves]
  | node z o ihz iho => intro code; simp [paths, leaves, ihz, iho]

theorem paths_extend (t : HTree) :
    ∀ (code : List Bool) (e : Char × List Bool), e ∈ paths t code →
      ∃ s, e.2 = code ++ s := by
  induction t with
  | leaf c =>
    intro code e h
    simp only [paths, List.mem_singleton] at h
    subst h
    exact ⟨[], by simp⟩
  | node z o ihz iho =>
    intro code e h
    simp only [paths, List.mem_append] at h
    rcases h with h | h
    · obtain ⟨s, hs⟩ := ihz _ e h
      exact ⟨false :: s, by simp [hs]⟩
    · obtain ⟨s, hs⟩ := iho _ e h
      exact ⟨true :: s, by simp [hs]⟩

theorem paths_node_mem {z o : HTree} {code : List Bool} {e : Char × List Bool}
    (h : e ∈ paths (HTree.node z o) code) : ∃ b s, e.2 = code ++ b :: s := by
  simp only [paths, List.mem_append] at h
  rcases h with h | h
  · obtain ⟨s, hs⟩ := paths_extend z _ e h
    exact ⟨false, s, by simp [hs]⟩
  · obtain ⟨s, hs⟩ := paths_extend o _ e h
    exact ⟨true, s, by simp [hs]⟩

theorem paths_pairwise (t : HTree) :
    ∀ code, List.Pairwise
      (fun e1 e2 : Char × List Bool => ¬ e1.2 <+: e2.2 ∧ ¬ e2.2 <+: e1.2)
      (paths t code) := by
  induction t with
  | leaf c => intro code; simp [paths]
  | node z o ihz iho =>
    intro code
    simp only [paths, List.pairwise_append]
    refine ⟨ihz _, iho _, ?_⟩
    intro e1 h1 e2 h2
    obtain ⟨s1, hs1⟩ := paths_extend z _ e1 h1
    obtain ⟨s2, hs2⟩ := paths_extend o _ e2 h2
    have hb1 : e1.2 = code ++ false :: s1 := by simp [hs1]
    have hb2 : e2.2 = code ++ true :: s2 := by simp [hs2]
    constructor
    · rw [hb1, hb2]
      intro hcon
      rw [List.prefix_append_right_inj, List.cons_prefix_cons] at hcon
      simp at hcon
    · rw [hb1, hb2]
      intro hcon
      rw [List.prefix_append_right_inj, List.cons_prefix_cons] at hcon
      simp at hcon

theorem paths_not_pref {t : HTree} {code : List Bool} {e1 e2 : Char × List Bool}
    (h1 : e1 ∈ paths t code) (h2 : e2 ∈ paths t code) (hne : e1 ≠ e2) :
    ¬ e1.2 <+: e2.2 := by
  have hp := paths_pairwise t code
  have hsym : Symmetric
      (fun a b : Char × List Bool => ¬ a.2 <+: b.2 ∧ ¬ b.2 <+: a.2) :=
    fun a b h => ⟨h.2, h.1⟩
  exact ((hp.forall hsym) h1 h2 hne).1

theorem gather_find (t : HTree) :
    ∀ (m : List (Char × List Bool)) (code : List Bool) (c : Char),
      assocFind (gatherLeaves t m code) c =
        (assocFind (paths t code).reverse c).or (assocFind m c) := by
  induction t with
  | leaf c' =>
    intro m code c
    by_cases hc : c' = c
    · subst hc
      simp [gatherLeaves, paths, mapPut_find_self, assocFind]
    · have hcc : c ≠ c' := fun h => hc h.symm
      simp [gatherLeaves, paths, mapPut_find_other hcc, assocFind, hc]
  | node z o ihz iho =>
    intro m code c
    simp only [gatherLeaves, paths, iho, ihz, List.reverse_append, assocFind_append,
      Option.or_assoc]

theorem buildEncodingMap_find (t : HTree) (c : Char) :
    assocFind (buildEncodingMap t) c = assocFind (paths t []).reverse c := by
  have h := gather_find t [] [] c
  simpa [buildEncodingMap, assocFind, Option.or_none] using h

theorem gather_mem (t : HTree) :
    ∀ (m : List (Char × List Bool)) (code : List Bool) (e : Char × List Bool),
      e ∈ gatherLeaves t m code → e ∈ paths t code ∨ e ∈ m := by
  induction t with
  | leaf c' =>
    intro m code e h
    rcases mapPut_mem h with h1 | h1
    · exact Or.inl (by simp [paths, h1])
    · exact Or.inr h1
  | node z o ihz iho =>
    intro m code e h
    rcases iho _ _ e h with h1 | h1
    · exact Or.inl (by simp [paths, h1])
    · rcases ihz _ _ e h1 with h2 | h2
      · exact Or.inl (by simp [paths, h2])
      · exact Or.inr h2

theorem buildEncodingMap_mem {t : HTree} {e : Char × List Bool}
    (h : e ∈ buildEncodingMap t) : e ∈ paths t [] := by
  rcases gather_mem t [] [] e h with h1 | h1
  · exact h1
  · simp at h1

theorem buildEncodingMap_isSome {t : HTree} {c : Char} (h : c ∈ leaves t) :
    (assocFind (buildEncodingMap t) c).isSome := by
  rw [buildEncodingMap_find]
  apply isSome_assocFind_of_mem_keys
  rw [List.map_reverse, List.mem_reverse, paths_fst]
  exact h

/-! ### The inverted map -/

theorem invert_find_eq {bm : List (Char × List Bool)} {c : Char} {p : List Bool}
    (hmem : (c, p) ∈ bm) (huniq : ∀ e ∈ bm, e.2 = p → e.1 = c) :
    assocFind (invert bm) p = some c := by
  induction bm with
  | nil => simp at hmem
  | cons e rest ih =>
    obtain ⟨c2, p2⟩ := e
    by_cases hp : p2 = p
    · have hc2 : c2 = c := huniq (c2, p2) (by simp) hp
      subst hc2
      simp [invert, assocFind, hp]
    · have hmem' : (c, p) ∈ rest := by
        rcases List.mem_cons.1 hmem with h | h
        · exfalso
          exact hp (congrArg Prod.snd h.symm)
        · exact h
      simp only [invert, List.map_cons, assocFind, if_neg hp]
      exact ih hmem' (fun e he h2 => huniq e (List.mem_cons_of_mem _ he) h2)

theorem invert_find_none {bm : List (Char × List Bool)} {q : List Bool}
    (h : ∀ e ∈ bm, e.2 ≠ q) : assocFind (invert bm) q = none := by
  induction bm with
  | nil => simp [invert, assocFind]
  | cons e rest ih =>
    obtain ⟨c2, p2⟩ := e
    have hp : p2 ≠ q := h (c2, p2) (by simp)
    simp only [invert, List.map_cons, assocFind, if_neg hp]
    exact ih (fun e he => h e (List.mem_cons_of_mem _ he))

/-! ### The decode loop -/

theorem decode_eof (cm : List (List Bool × Char)) (acc : List Bool) (out : List Char)
    (f : Nat) (h : assocFind cm acc = none) :
    decodeStep cm (f + 1) [] acc out = some out := by
  simp [decodeStep, h]

theorem decode_diverge {cm : List (List Bool × Char)} {ch : Char}
    (h : assocFind cm [] = some ch) :
    ∀ (f : Nat) (input : List Bool) (out : List Char),
      decodeStep cm f input [] out = none := by
  intro f
  induction f with
  | zero => intro input out; simp [decodeStep]
  | succ f ih =>
    intro input out
    simp only [decodeStep, h]
    exact ih input (out ++ [ch])

theorem consumeCode {cm : List (List Bool × Char)} {c : Char} :
    ∀ (p2 acc : List Bool) (f : Nat) (out : List Char) (rest : List Bool),
      (∀ q, acc <+: q → q <+: acc ++ p2 → q ≠ acc ++ p2 → assocFind cm q = none) →
      assocFind cm (acc ++ p2) = some c →
      p2.length + 1 ≤ f →
      decodeStep cm f (p2 ++ rest) acc out =
        decodeStep cm (f - (p2.length + 1)) rest [] (out ++ [c]) := by
  intro p2
  induction p2 with
  | nil =>
    intro acc f out rest hq hkey hf
    obtain ⟨g, rfl⟩ : ∃ g, f = g + 1 := ⟨f - 1, by omega⟩
    rw [List.append_nil] at hkey
    simp [decodeStep, hkey]
  | cons b p2' ih =>
    intro acc f out rest hq hkey hf
    obtain ⟨g, rfl⟩ : ∃ g, f = g + 1 := ⟨f - 1, by omega⟩
    have hacc : assocFind cm acc = none := by
      apply hq acc List.prefix_rfl (List.prefix_append ..)
      intro hcon
      have := congrArg List.length hcon
      simp at this
    have heq : acc ++ b :: p2' = (acc ++ [b]) ++ p2' := by simp
    have harith : g + 1 - ((b :: p2').length + 1) = g - (p2'.length + 1) := by
      simp only [List.length_cons]
      omega
    rw [harith]
    simp only [decodeStep, hacc, List.cons_append]
    exact ih (acc ++ [b]) g out rest
      (fun q h1 h2 h3 =>
        hq q ((List.prefix_append acc [b]).trans h1)
          (by rw [heq]; exact h2) (by rw [heq]; exact h3))
      (by rw [← heq]; exact hkey)
      (by simp only [List.length_cons] at hf; omega)

theorem decodeAll {bm : List (Char × List Bool)} {cm : List (List Bool × Char)}
    (hcm : assocFind cm [] = none) :
    ∀ (cs : List Char) (f : Nat) (out : List Char),
      (∀ c ∈ cs, GoodChar bm cm c) →
      2 * (cs.flatMap fun c => (assocFind bm c).getD []).length + 2 ≤ f →
      decodeStep cm f (cs.flatMap fun c => (assocFind bm c).getD []) [] out =
        some (out ++ cs) := by
  intro cs
  induction cs with
  | nil =>
    intro f out _ hf
    obtain ⟨g, rfl⟩ : ∃ g, f = g + 1 := ⟨f - 1, by omega⟩
    simp [decodeStep, hcm]
  | cons c cs' ih =>
    intro f out hgood hf
    obtain ⟨p, hbm, hpne, hcmp, hpref⟩ := hgood c (by simp)
    have hflat : ((c :: cs').flatMap fun c => (assocFind bm c).getD []) =
        p ++ (cs'.flatMap fun c => (assocFind bm c).getD []) := by
      simp [hbm]
    rw [hflat] at hf ⊢
    have hp1 : 1 ≤ p.length := by
      cases p with
      | nil => exact absurd rfl hpne
      | cons x xs => simp
    have hflen : 2 * (p.length +
        (cs'.flatMap fun c => (assocFind bm c).getD []).length) + 2 ≤ f := by
      simpa using hf
    rw [consumeCode p [] f out _
      (fun q _ h2 h3 => hpref q (by simpa using h2) (by simpa using h3))
      (by simpa using hcmp)
      (by omega)]
    rw [ih (f - (p.length + 1)) (out ++ [c])
      (fun c2 h2 => hgood c2 (List.mem_cons_of_mem _ h2))
      (by omega)]
    simp

theorem decode_terminates {cm : List (List Bool × Char)} (hcm : assocFind cm [] = none) :
    ∀ (input : List Bool) (f : Nat) (acc : List Bool) (out : List Char),
      2 * input.length + 2 ≤ f → (decodeStep cm f input acc out).isSome := by
  intro input
  induction input with
  | nil =>
    intro f acc out hf
    obtain ⟨g, rfl⟩ : ∃ g, f = g + 1 := ⟨f - 1, by omega⟩
    cases hacc : assocFind cm acc with
    | none => simp [decodeStep, hacc]
    | some c =>
      obtain ⟨g2, rfl⟩ : ∃ g2, g = g2 + 1 := ⟨g - 1, by simp at hf; omega⟩
      simp [decodeStep, hacc, hcm]
  | cons b rest ih =>
    intro f acc out hf
    obtain ⟨g, rfl⟩ : ∃ g, f = g + 1 := ⟨f - 1, by omega⟩
    cases hacc : assocFind cm acc with
    | none =>
      simp only [decodeStep, hacc]
      exact ih g (acc ++ [b]) out (by simp only [List.length_cons] at hf; omega)
    | some c =>
      obtain ⟨g2, rfl⟩ : ∃ g2, g = g2 + 1 := ⟨g - 1, by simp at hf; omega⟩
      simp only [decodeStep, hacc, hcm]
      exact ih g2 ([] ++ [b]) (out ++ [c])
        (by simp only [List.length_cons] at hf; omega)

/-! ### The priority queue and tree construction -/

theorem pqInsert_perm (x : HTree × Nat) (l : List (HTree × Nat)) :
    List.Perm (pqInsert x l) (x :: l) := by
  induction l with
  | nil => simp [pqInsert]
  | cons y rest ih =>
    by_cases h : x.2 < y.2
    · simp [pqInsert, h]
    · simp only [pqInsert, if_neg h]
      exact (ih.cons y).trans (List.Perm.swap x y rest)

theorem pqInsert_length (x : HTree × Nat) (l : List (HTree × Nat)) :
    (pqInsert x l).length = l.length + 1 := by
  simpa using (pqInsert_perm x l).length_eq

theorem buildLoop_spec :
    ∀ (f : Nat) (q : List (HTree × Nat)), q ≠ [] → q.length ≤ f + 1 →
      ∃ t, buildLoop f q = some t ∧
        List.Perm (leaves t) (q.flatMap fun p => leaves p.1) := by
  intro f
  induction f with
  | zero =>
    intro q hne hlen
    cases q with
    | nil => exact absurd rfl hne
    | cons a q2 =>
      cases q2 with
      | nil => exact ⟨a.1, rfl, by simp⟩
      | cons b rest => simp at hlen
  | succ f ih =>
    intro q hne hlen
    cases q with
    | nil => exact absurd rfl hne
    | cons a q2 =>
      cases q2 with
      | nil => exact ⟨a.1, rfl, by simp⟩
      | cons b rest =>
        have hq' : (pqInsert (HTree.node a.1 b.1, a.2 + b.2) rest).length =
            rest.length + 1 := pqInsert_length _ _
        obtain ⟨t, ht, hp⟩ := ih (pqInsert (HTree.node a.1 b.1, a.2 + b.2) rest)
          (by
            intro hcon
            rw [hcon] at hq'
            simp at hq')
          (by
            simp only [List.length_cons] at hlen
            omega)
        refine ⟨t, ?_, ?_⟩
        · simpa only [buildLoop] using ht
        · refine hp.trans ?_
          refine ((pqInsert_perm _ rest).flatMap_right _).trans ?_
          have heq : (((HTree.node a.1 b.1, a.2 + b.2) :: rest).flatMap
              fun p => leaves p.1) =
              ((a :: b :: rest).flatMap fun p => leaves p.1) := by
            simp [leaves, List.append_assoc]
          rw [heq]

theorem buildLoop_node :
    ∀ (f : Nat) (q : List (HTree × Nat)), 2 ≤ q.length → q.length ≤ f + 1 →
      ∃ z o, buildLoop f q = some (HTree.node z o) := by
  intro f
  induction f with
  | zero => intro q h2 hlen; omega
  | succ f ih =>
    intro q h2 hlen
    cases q with
    | nil => simp at h2
    | cons a q2 =>
      cases q2 with
      | nil => simp at h2
      | cons b rest =>
        cases rest with
        | nil => exact ⟨a.1, b.1, by simp [buildLoop, pqInsert]⟩
        | cons c rest2 =>
          have hq' : (pqInsert (HTree.node a.1 b.1, a.2 + b.2) (c :: rest2)).length =
              rest2.length + 2 := by
            rw [pqInsert_length]
            simp
          obtain ⟨z, o, ht⟩ := ih (pqInsert (HTree.node a.1 b.1, a.2 + b.2) (c :: rest2))
            (by omega) (by simp only [List.length_cons] at hlen; omega)
          exact ⟨z, o, by simpa only [buildLoop] using ht⟩

theorem foldl_pqInsert_perm (ft : List (Char × Nat)) :
    ∀ q0, List.Perm (ft.foldl (fun w p => pqInsert (HTree.leaf p.1, p.2) w) q0)
      ((ft.map fun p => (HTree.leaf p.1, p.2)) ++ q0) := by
  induction ft with
  | nil => intro q0; simp
  | cons x xs ih =>
    intro q0
    simp only [List.foldl_cons, List.map_cons, List.cons_append]
    refine (ih _).trans ?_
    refine (List.Perm.append_left _ (pqInsert_perm _ q0)).trans ?_
    exact List.perm_middle

theorem initq_length (ft : List (Char × Nat)) :
    (ft.foldl (fun w p => pqInsert (HTree.leaf p.1, p.2) w) []).length = ft.length := by
  have h := (foldl_pqInsert_perm ft []).length_eq
  simpa using h

theorem flatMap_leaf_map (ft : List (Char × Nat)) :
    ((ft.map fun p => (HTree.leaf p.1, p.2)).flatMap fun p => leaves p.1) =
      ft.map Prod.fst := by
  induction ft with
  | nil => rfl
  | cons x xs ih => simp [leaves, ih]

theorem buildEncodingTree_spec (ft : List (Char × Nat)) (hne : ft ≠ []) :
    ∃ t, buildEncodingTree ft = some t ∧ List.Perm (leaves t) (ft.map Prod.fst) := by
  have hlen := initq_length ft
  have hqne : ft.foldl (fun w p => pqInsert (HTree.leaf p.1, p.2) w) [] ≠ [] := by
    intro hcon
    rw [hcon] at hlen
    exact hne (List.eq_nil_of_length_eq_zero hlen.symm)
  obtain ⟨t, ht, hp⟩ := buildLoop_spec
    (ft.foldl (fun w p => pqInsert (HTree.leaf p.1, p.2) w) []).length
    (ft.foldl (fun w p => pqInsert (HTree.leaf p.1, p.2) w) [])
    hqne (by omega)
  refine ⟨t, by simpa only [buildEncodingTree] using ht, ?_⟩
  refine hp.trans ?_
  refine ((foldl_pqInsert_perm ft []).flatMap_right _).trans ?_
  rw [List.append_nil, flatMap_leaf_map]

theorem buildEncodingTree_node (ft : List (Char × Nat)) (h2 : 2 ≤ ft.length) :
    ∃ z o, buildEncodingTree ft = some (HTree.node z o) := by
  have hlen := initq_length ft
  obtain ⟨z, o, ht⟩ := buildLoop_node
    (ft.foldl (fun w p => pqInsert (HTree.leaf p.1, p.2) w) []).length
    (ft.foldl (fun w p => pqInsert (HTree.leaf p.1, p.2) w) [])
    (by omega) (by omega)
  exact ⟨z, o, by simpa only [buildEncodingTree] using ht⟩

/-! ### Assembling the pipeline -/

theorem two_mem_length {α : Type} {l : List α} {a b : α} (ha : a ∈ l) (hb : b ∈ l)
    (hab : a ≠ b) : 2 ≤ l.length := by
  cases l with
  | nil => simp at ha
  | cons x l2 =>
    cases l2 with
    | nil =>
      simp only [List.mem_singleton] at ha hb
      exact absurd (ha.trans hb.symm) hab
    | cons y l3 => simp

theorem mem_keys_freq {input : List Char} {c : Char} (h : c ∈ input) :
    c ∈ (buildFrequencyTable input).map Prod.fst := by
  have hc : input.count c ≠ 0 := by
    intro hcon
    rw [List.count_eq_zero] at hcon
    exact hcon h
  exact mem_keys_of_assocFind (show assocFind (buildFrequencyTable input) c =
    some (input.count c) by rw [buildFrequencyTable_find input c, if_neg hc])

theorem invert_node_nil_none (z o : HTree) :
    assocFind (invert (buildEncodingMap (HTree.node z o))) [] = none := by
  apply invert_find_none
  intro e he
  obtain ⟨b, s, hbs⟩ := paths_node_mem (buildEncodingMap_mem he)
  simp [hbs]

theorem goodChar_of_node {z o : HTree} {c : Char}
    (h : c ∈ leaves (HTree.node z o)) :
    GoodChar (buildEncodingMap (HTree.node z o))
      (invert (buildEncodingMap (HTree.node z o))) c := by
  have hs : (assocFind (buildEncodingMap (HTree.node z o)) c).isSome :=
    buildEncodingMap_isSome h
  obtain ⟨p, hp⟩ : ∃ p, assocFind (buildEncodingMap (HTree.node z o)) c = some p :=
    Option.isSome_iff_exists.1 hs
  have hmem : (c, p) ∈ buildEncodingMap (HTree.node z o) := assocFind_mem hp
  have hpaths : (c, p) ∈ paths (HTree.node z o) [] := buildEncodingMap_mem hmem
  refine ⟨p, hp, ?_, ?_, ?_⟩
  · obtain ⟨b, s, hbs⟩ := paths_node_mem hpaths
    simp only at hbs
    simp [hbs]
  · apply invert_find_eq hmem
    intro e he hesnd
    have hep : e ∈ paths (HTree.node z o) [] := buildEncodingMap_mem he
    by_contra hne
    have hnee : e ≠ (c, p) := by
      intro hcon
      rw [hcon] at hne
      simp at hne
    have hnp := paths_not_pref hep hpaths hnee
    rw [hesnd] at hnp
    exact hnp List.prefix_rfl
  · intro q hq hqne
    apply invert_find_none
    intro e he hesnd
    have hep : e ∈ paths (HTree.node z o) [] := buildEncodingMap_mem he
    have hnee : e ≠ (c, p) := by
      intro hcon
      rw [hcon] at hesnd
      exact hqne hesnd.symm
    have hnp := paths_not_pref hep hpaths hnee
    rw [hesnd] at hnp
    exact hnp hq

theorem freq_replicate_aux (c : Char) :
    ∀ (n k : Nat), (List.replicate n c).foldl freqStep [(c, k)] = [(c, k + n)] := by
  intro n
  induction n with
  | zero => intro k; simp
  | succ n ih =>
    intro k
    have hstep : freqStep [(c, k)] c = [(c, k + 1)] := by
      simp [freqStep, assocFind, mapPut]
    rw [List.replicate_succ, List.foldl_cons, hstep, ih (k + 1)]
    have harith : k + 1 + n = k + (n + 1) := by omega
    rw [harith]

theorem freq_replicate (c : Char) (n : Nat) (hn : 0 < n) :
    buildFrequencyTable (List.replicate n c) = [(c, n)] := by
  obtain ⟨m, rfl⟩ : ∃ m, n = m + 1 := ⟨n - 1, by omega⟩
  have hstep : freqStep [] c = [(c, 1)] := by
    simp [freqStep, assocFind, mapPut]
  rw [buildFrequencyTable, List.replicate_succ, List.foldl_cons, hstep,
    freq_replicate_aux c m 1]
  have harith : 1 + m = m + 1 := by omega
  rw [harith]

theorem flatMap_replicate_nil {α β : Type} (c : α) (g : α → List β) (hg : g c = []) :
    ∀ n, (List.replicate n c).flatMap g = [] := by
  intro n
  induction n with
  | zero => rfl
  | succ m ih => simp [List.replicate_succ, hg, ih]

theorem compress_replicate (c : Char) (n : Nat) (hn : 0 < n) :
    compress (List.replicate n c) = some (['.', c], []) := by
  have hft := freq_replicate c n hn
  have htree : buildEncodingTree [(c, n)] = some (HTree.leaf c) := by
    simp [buildEncodingTree, pqInsert, buildLoop]
  have hbm : ((fun ch => (assocFind (buildEncodingMap (HTree.leaf c)) ch).getD []) c) =
      ([] : List Bool) := by
    simp [buildEncodingMap, gatherLeaves, mapPut, assocFind]
  have hbits := flatMap_replicate_nil c
    (fun ch => (assocFind (buildEncodingMap (HTree.leaf c)) ch).getD []) hbm n
  simp only [compress, hft, htree, flattenTreeToHeader, hbits]

/-! ### The claims -/

/-- C1 (corrected): decompressing the compression of an input reproduces the
input exactly, for every input that contains at least two distinct byte
values.  As stated over all byte sequences the claim fails: on empty input
`compress` dequeues from an empty priority queue (an error), and on an input
that repeats a single byte the tree is a bare leaf with an empty code, so
`decompress` never terminates — see the counterexample. -/
theorem roundTrip_two_distinct (input : List Char) (a b : Char)
    (ha : a ∈ input) (hb : b ∈ input) (hab : a ≠ b) :
    roundTrip input = some input := by
  have hka := mem_keys_freq ha
  have hkb := mem_keys_freq hb
  have h2 : 2 ≤ (buildFrequencyTable input).length := by
    have h := two_mem_length hka hkb hab
    simpa using h
  obtain ⟨t, ht, hperm⟩ := buildEncodingTree_spec (buildFrequencyTable input)
    (by
      intro hcon
      rw [hcon] at h2
      simp at h2)
  obtain ⟨z, o, ht2⟩ := buildEncodingTree_node (buildFrequencyTable input) h2
  rw [ht] at ht2
  injection ht2 with ht2
  subst ht2
  have hcm := invert_node_nil_none z o
  have hgood : ∀ c ∈ input, GoodChar (buildEncodingMap (HTree.node z o))
      (invert (buildEncodingMap (HTree.node z o))) c := by
    intro c hc
    exact goodChar_of_node (hperm.mem_iff.2 (mem_keys_freq hc))
  have hdec := decodeAll hcm input
    (2 * (input.flatMap fun c =>
      (assocFind (buildEncodingMap (HTree.node z o)) c).getD []).length + 2) []
    hgood (by omega)
  simp only [roundTrip, compress, ht, decompress, recreate_flatten_aux, hdec,
    List.nil_append]

/-- C1 witness: a two-symbol input round-trips. -/
theorem roundTrip_two_distinct_witness :
    ('a' : Char) ≠ 'b' ∧ roundTrip ['a', 'b'] = some ['a', 'b'] :=
  ⟨by decide,
    roundTrip_two_distinct ['a', 'b'] 'a' 'b' (by decide) (by decide) (by decide)⟩

/-- C1 counterexample: the single-repeated-byte input "zzzz" does not round
trip — compression succeeds with an empty payload, but decompression of the
result never terminates (modelled as none). -/
theorem roundTrip_single_symbol_fails :
    roundTrip ['z', 'z', 'z', 'z'] ≠ some ['z', 'z', 'z', 'z'] := by decide

/-- C2 (confirmed): parsing the flattened header of any strictly binary
code tree reconstructs a structurally identical tree — the same shape with
the same leaf character at every position — whatever byte values appear at
the leaves (including '.', '(' and ')'). -/
theorem recreate_flatten_id (t : HTree) :
    recreateTreeFromHeader (flattenTreeToHeader t) = some t :=
  recreate_flatten_aux t

/-- C3 (confirmed): in any encoding map produced by buildEncodingMap, the
codes of two distinct symbols are never one a prefix of the other. -/
theorem encodingMap_prefix_free (t : HTree) (a b : Char) (pa pb : List Bool)
    (hab : a ≠ b)
    (ha : assocFind (buildEncodingMap t) a = some pa)
    (hb : assocFind (buildEncodingMap t) b = some pb) :
    ¬ pa <+: pb := by
  have hma : (a, pa) ∈ paths t [] := buildEncodingMap_mem (assocFind_mem ha)
  have hmb : (b, pb) ∈ paths t [] := buildEncodingMap_mem (assocFind_mem hb)
  have hne : (a, pa) ≠ (b, pb) := by
    intro hcon
    exact hab (congrArg Prod.fst hcon)
  exact paths_not_pref hma hmb hne

/-- C3 witness at a concrete two-leaf tree. -/
theorem encodingMap_prefix_free_witness :
    assocFind (buildEncodingMap (HTree.node (HTree.leaf 'a') (HTree.leaf 'b'))) 'a' =
      some [false] ∧ ¬ [false] <+: [true] :=
  ⟨by decide,
    encodingMap_prefix_free (HTree.node (HTree.leaf 'a') (HTree.leaf 'b')) 'a' 'b'
      [false] [true] (by decide) (by decide) (by decide)⟩

/-- C4 (code bug): a one-symbol frequency table yields a bare single leaf,
whose encoding map assigns that symbol the empty code — not a code of at
least one bit as the spec requires.  Compressing "zzzz" therefore emits the
header ".z" with zero payload bits, and decompressing that output never
terminates (for every fuel the decode loop keeps emitting 'z' and returns
none), so the required round trip fails. -/
theorem single_symbol_code_bug :
    buildEncodingTree [('z', 4)] = some (HTree.leaf 'z') ∧
    assocFind (buildEncodingMap (HTree.leaf 'z')) 'z' = some [] ∧
    compress ['z', 'z', 'z', 'z'] = some (['.', 'z'], []) ∧
    (∀ (f : Nat) (out : List Char),
      decodeStep (invert (buildEncodingMap (HTree.leaf 'z'))) f [] [] out = none) ∧
    roundTrip ['z', 'z', 'z', 'z'] = none := by
  refine ⟨by decide, by decide, by decide, ?_, by decide⟩
  intro f out
  exact decode_diverge (show assocFind (invert (buildEncodingMap (HTree.leaf 'z'))) [] =
    some 'z' by decide) f [] out

/-- C5 counterexample: the header "x.a.b)" starts with the unexpected token
'x' (and its ')' is unmatched), yet recreateTreeFromHeader returns a tree
instead of failing: any character other than '.' is consumed as if it were
an opening parenthesis and the closing marker is consumed unchecked. -/
theorem recreate_accepts_bad_token :
    recreateTreeFromHeader ['x', '.', 'a', '.', 'b', ')'] =
      some (HTree.node (HTree.leaf 'a') (HTree.leaf 'b')) := by decide

/-- C5 (corrected): on a truncated header — any proper leading part of a
well-formed header — recreateTreeFromHeader does fail (the C++ code throws
an out-of-range substring error, modelled as none).  But the parser
validates nothing else: headers with unexpected tokens or unmatched
markers can successfully return a tree, as the counterexample shows, so
the claim's failure guarantee holds only for truncation. -/
theorem recreate_truncated_fails (t : HTree) (p q : List Char)
    (h : flattenTreeToHeader t = p ++ q) (hq : q ≠ []) :
    recreateTreeFromHeader p = none := by
  rw [recreateTreeFromHeader, recH_truncated t p q (p.length + 1) h hq (le_refl _)]
  rfl

/-- C5 witness: the truncated header "(.a" fails. -/
theorem recreate_truncated_fails_witness :
    flattenTreeToHeader (HTree.node (HTree.leaf 'a') (HTree.leaf 'b')) =
      ['(', '.', 'a'] ++ ['.', 'b', ')'] ∧
    recreateTreeFromHeader ['(', '.', 'a'] = none :=
  ⟨by decide,
    recreate_truncated_fails (HTree.node (HTree.leaf 'a') (HTree.leaf 'b'))
      ['(', '.', 'a'] ['.', 'b', ')'] (by decide) (by decide)⟩

/-- C6 counterexample: with the header of the tree ((.a.b).c) — codes
a = 00, b = 01, c = 1 — and the one-bit payload [0], the bit source reaches
end-of-stream while the accumulator still holds the unmatched bit 0 (the
first conjunct shows [0] is no code), yet decompress silently returns a
successful empty output instead of surfacing a corrupt-bitstream error. -/
theorem decode_eof_nonempty_acc_silent_cex :
    assocFind (invert (buildEncodingMap
      (HTree.node (HTree.node (HTree.leaf 'a') (HTree.leaf 'b')) (HTree.leaf 'c'))))
      [false] = none ∧
    decompress ['(', '(', '.', 'a', '.', 'b', ')', '.', 'c', ')'] [false] = some [] :=
  ⟨by decide, by decide⟩

/-- C6 (corrected): when the bit source reaches end-of-stream while the
accumulator holds bits that match no code, the decode loop returns the
output produced so far, silently discarding the accumulated bits; no error
of any kind is surfaced. -/
theorem decode_eof_silent_return (cm : List (List Bool × Char)) (acc : List Bool)
    (out : List Char) (f : Nat) (h : assocFind cm acc = none) :
    decodeStep cm (f + 1) [] acc out = some out :=
  decode_eof cm acc out f h

/-- C6 witness: end-of-stream with the unmatched accumulator [0] returns
the output decoded so far. -/
theorem decode_eof_silent_return_witness :
    assocFind [([false, false], 'a')] [false] = none ∧
    decodeStep [([false, false], 'a')] 1 [] [false] ['x'] = some ['x'] :=
  ⟨by decide, decode_eof_silent_return [([false, false], 'a')] [false] ['x'] 0 (by decide)⟩

/-- C7 (corrected): for the header of any tree whose root is an internal
node (at least two leaves) and any finite bitstream, decompress terminates
with a value, stopping when the bit source reports end-of-stream — though
regardless of whether the accumulator is empty there, not only when it is.
For a single-leaf header the decode loop never terminates, so the claim's
"including a single-leaf tree" part fails — see the counterexample. -/
theorem decompress_node_terminates (z o : HTree) (bits : List Bool) :
    (decompress (flattenTreeToHeader (HTree.node z o)) bits).isSome := by
  simp only [decompress, recreate_flatten_aux]
  exact decode_terminates (invert_node_nil_none z o) bits (2 * bits.length + 2) [] []
    (by omega)

/-- C7 counterexample: on the single-leaf header ".z" the decode loop runs
forever even with an empty bitstream: the empty accumulator immediately
matches the empty code of 'z', so the loop keeps emitting 'z' and never
reaches the end-of-stream check — no amount of fuel makes it return. -/
theorem decode_single_leaf_diverges :
    invert (buildEncodingMap (HTree.leaf 'z')) = [([], 'z')] ∧
    ¬ ∃ (f : Nat) (out : List Char),
      decodeStep (invert (buildEncodingMap (HTree.leaf 'z'))) f [] [] [] = some out := by
  refine ⟨by decide, ?_⟩
  rintro ⟨f, out, hcon⟩
  rw [decode_diverge (show assocFind (invert (buildEncodingMap (HTree.leaf 'z'))) [] =
    some 'z' by decide) f [] []] at hcon
  exact Option.noConfusion hcon

/-- C8 (confirmed): for every non-empty frequency table, the combining loop
— repeatedly dequeue the two minimum-priority nodes (each priority read
before its removal), enqueue their combination with the summed priority,
stop at one node — succeeds, and the multiset of leaf characters of the
resulting tree (strictly binary, since the model's node constructor is the
only internal-node constructor the code uses) equals the multiset of table
keys. -/
theorem buildEncodingTree_leaves_perm (ft : List (Char × Nat)) (hne : ft ≠ []) :
    ∃ t, buildEncodingTree ft = some t ∧ List.Perm (leaves t) (ft.map Prod.fst) :=
  buildEncodingTree_spec ft hne

/-- C8 witness at a concrete two-entry table. -/
theorem buildEncodingTree_leaves_perm_witness :
    ([(('a' : Char), 1), ('b', 2)] : List (Char × Nat)) ≠ [] ∧
    ∃ t, buildEncodingTree [(('a' : Char), 1), ('b', 2)] = some t ∧
      List.Perm (leaves t) ([(('a' : Char), 1), ('b', 2)].map Prod.fst) :=
  ⟨by decide, buildEncodingTree_leaves_perm [('a', 1), ('b', 2)] (by decide)⟩

/-- C9 (confirmed): buildFrequencyTable consumes the whole input once and
maps each byte to its exact occurrence count, with no entry for bytes that
do not occur; the empty input yields the empty table. -/
theorem buildFrequencyTable_counts :
    buildFrequencyTable [] = [] ∧
    ∀ (input : List Char) (c : Char),
      assocFind (buildFrequencyTable input) c =
        if input.count c = 0 then none else some (input.count c) :=
  ⟨rfl, buildFrequencyTable_find⟩

/-- C10 (confirmed): a single-leaf code tree maps its symbol to the empty
bit string, and compressing an input that repeats one symbol emits exactly
the two-character header followed by zero payload bits. -/
theorem single_leaf_empty_code (c : Char) (n : Nat) (hn : 0 < n) :
    assocFind (buildEncodingMap (HTree.leaf c)) c = some [] ∧
    compress (List.replicate n c) = some (['.', c], []) := by
  constructor
  · simp [buildEncodingMap, gatherLeaves, mapPut, assocFind]
  · exact compress_replicate c n hn

/-- C10 witness at "zzzz". -/
theorem single_leaf_empty_code_witness :
    0 < 4 ∧ (assocFind (buildEncodingMap (HTree.leaf 'z')) 'z' = some [] ∧
      compress (List.replicate 4 'z') = some (['.', 'z'], [])) :=
  ⟨by decide, single_leaf_empty_code 'z' 4 (by decide)⟩

end Huffman
